import Mathlib

/-!
Verification development for the MRPT sparse-matrix module
(`libs/base/include/mrpt/math/CSparseMatrix.h`).

The repository provides the class interface in the header; the algorithm
bodies (triplet compression, sparse arithmetic, and the CSparse Cholesky
engine `cs_schol` / `cs_chol` / `cs_lsolve` / `cs_ltsolve`) live in
translation units that are not part of the given sources.  Following the
specification document, those operations are modelled here explicitly:

* sparse storage and its operations are modelled over exact rationals
  (the C++ cells are `double`; we model the arithmetic exactly);
* the Cholesky engine is modelled over the real numbers, where the
  "within floating tolerance" statements of the specification become
  exact equalities.

Definitions whose doc comment starts with "Modelled from the spec:" embed
behaviour whose C++ implementation is not among the given sources.
-/

namespace MrptSparse

/-! ## The raw `cs` record and its mode sentinel

Mirrors the CSparse `cs` struct stored in `CSparseMatrix::sparse_matrix`:
integer dimensions `m`, `n`, the three buffers `p`, `i`, `x`, and the
sentinel `nz` ("`<0` means column compressed, `>=0` means triplet"). -/

structure cs where
  m : ℤ
  n : ℤ
  nzmax : ℤ
  p : List ℤ
  i : List ℤ
  x : List ℚ
  nz : ℤ

/-- Embeds `CSparseMatrix::isTriplet`: `return sparse_matrix.nz>=0;`. -/
def cs.isTriplet (M : cs) : Bool := decide (M.nz ≥ 0)

/-- Embeds `CSparseMatrix::isColumnCompressed`: `return sparse_matrix.nz<0;`. -/
def cs.isColumnCompressed (M : cs) : Bool := decide (M.nz < 0)

/-! ## Triplet storage -/

/-- A `CSparseMatrix` while in "triplet" mode: row count, column count and
the append-only list of `(row, col, value)` entries. -/
structure TripletForm where
  m : ℕ
  n : ℕ
  entries : List (ℕ × ℕ × ℚ)

/-- Embeds the constructor `CSparseMatrix(nRows, nCols)`: an initially empty
triplet matrix of the requested extents. -/
def tripletInit (nRows nCols : ℕ) : TripletForm := ⟨nRows, nCols, []⟩

/-- Modelled from the spec: `insert_entry` (CSparse `cs_entry`, not among the
given sources) appends the entry unconditionally — duplicates allowed — and
grows the extents to exactly accommodate `(row+1, col+1)`, never shrinking. -/
def insert_entry (M : TripletForm) (row col : ℕ) (val : ℚ) : TripletForm :=
  ⟨max M.m (row + 1), max M.n (col + 1), M.entries ++ [(row, col, val)]⟩

/-- Embeds `CSparseMatrix::insert_entry_fast`: appends the entry "without
extending the matrix extension/limits if (row,col) is out of the current
size". -/
def insert_entry_fast (M : TripletForm) (row col : ℕ) (val : ℚ) : TripletForm :=
  ⟨M.m, M.n, M.entries ++ [(row, col, val)]⟩

/-- Value read from a raw triplet entry list at one coordinate: the sum of
the values of every entry stored there (the `+=` accumulation convention:
duplicate entries at one coordinate add up). -/
def entriesSumAt (es : List (ℕ × ℕ × ℚ)) (r c : ℕ) : ℚ :=
  ((es.filter fun e => e.1 == r && e.2.1 == c).map fun e => e.2.2).sum

/-- Dense reading of a triplet matrix at one coordinate. -/
def TripletForm.dense (T : TripletForm) (r c : ℕ) : ℚ :=
  entriesSumAt T.entries r c

/-! ## Column-compressed storage

Modelled from the spec: the canonical storage is a column-pointer array of
length `cols+1`, a row-index array and an index-aligned value array.  We
store the per-column `(row, value)` segments, from which the three arrays
are the derived views `colPtr`, `rowInd`, `vals` below (the column-pointer
array is exactly the running prefix sum of the segment lengths, and the
row-index/value arrays are their flattenings). -/

structure CompressedForm where
  m : ℕ
  n : ℕ
  cols : List (List (ℕ × ℚ))

/-- The CSC column-pointer array: `colPtr[0] = 0`, `colPtr[cols] = nnz`. -/
def CompressedForm.colPtr (A : CompressedForm) : List ℕ :=
  A.cols.scanl (fun acc col => acc + col.length) 0

/-- The CSC row-index array. -/
def CompressedForm.rowInd (A : CompressedForm) : List ℕ :=
  A.cols.flatten.map Prod.fst

/-- The CSC value array. -/
def CompressedForm.vals (A : CompressedForm) : List ℚ :=
  A.cols.flatten.map Prod.snd

/-- The number of stored entries. -/
def CompressedForm.nnz (A : CompressedForm) : ℕ :=
  A.cols.flatten.length

/-- Value read from one stored column at one row: the sum of the values of
every slot with that row index (the `+=` accumulation convention). -/
def colValueAt (col : List (ℕ × ℚ)) (r : ℕ) : ℚ :=
  ((col.filter fun e => e.1 == r).map Prod.snd).sum

/-- Embeds `get_dense` / `cs2dense`: expand the compressed storage into a
dense reading, explicit zeros at absent coordinates. -/
def CompressedForm.dense (A : CompressedForm) (r c : ℕ) : ℚ :=
  colValueAt (A.cols.getD c []) r

/-- Number of stored slots of one column at one row index (used to state
that compression leaves at most one slot per coordinate). -/
def CompressedForm.countAt (A : CompressedForm) (r c : ℕ) : ℕ :=
  ((A.cols.getD c []).filter fun e => e.1 == r).length

/-- Structural well-formedness of a compressed matrix: one stored column
per matrix column, and every stored row index within the row count. -/
def CompressedForm.Wf (A : CompressedForm) : Prop :=
  A.cols.length = A.n ∧ ∀ col ∈ A.cols, ∀ e ∈ col, e.1 < A.m

/-- Modelled from the spec: the per-column scatter of `compressFromTriplet`
sums the values that share one `(row, col)` coordinate into a single slot;
slots appear in order of first appearance of their row index. -/
def consolidate (ps : List (ℕ × ℚ)) : List (ℕ × ℚ) :=
  (ps.map Prod.fst).dedup.map fun r => (r, colValueAt ps r)

/-- The `(row, value)` pairs of the triplet entries that fall in column `c`. -/
def columnOf (T : TripletForm) (c : ℕ) : List (ℕ × ℚ) :=
  (T.entries.filter fun e => e.2.1 == c).map fun e => (e.1, e.2.2)

/-- Modelled from the spec: `compressFromTriplet` (CSparse `cs_compress`,
not among the given sources) computes per-column counts, prefix-sums them
into column pointers, and scatters the `(row, value)` pairs into per-column
slots, summing values that share the same `(row, col)`; the triplet storage
is discarded and the extents are kept. -/
def compressFromTriplet (T : TripletForm) : CompressedForm :=
  ⟨T.m, T.n, (List.range T.n).map fun c => consolidate (columnOf T c)⟩

/-- Builds the triplet matrix holding every non-zero cell of a dense matrix
`D` of extents `m × n`, scanned column-major exactly as the header's
`construct_from_mrpt_mat` scans its input (`for c ... for r ... if
C.get_unsafe(r,c)!=0`). -/
def tripletOfDense (m n : ℕ) (D : ℕ → ℕ → ℚ) : TripletForm :=
  ⟨m, n, (List.range n).flatMap fun c =>
    (List.range m).filterMap fun r =>
      if D r c ≠ 0 then some (r, c, D r c) else none⟩

/-- The duplicate-summation example of the spec: into an initially empty
2×2 triplet matrix, `(1,1,3.0)` is inserted and then `(1,1,4.0)`. -/
def dupExampleTriplet : TripletForm :=
  insert_entry (insert_entry (tripletInit 2 2) 1 1 3) 1 1 4

/-! ## The template-based constructor (claim C9) -/

/-- Minimal model of `CSparseMatrixTemplate<double>`: extents plus the
stored coordinate/value association list. -/
structure SparseTemplate where
  rows : ℕ
  cols : ℕ
  objs : List ((ℕ × ℕ) × ℚ)

/-- Embeds `CSparseMatrixTemplate::empty()`: no stored elements. -/
def SparseTemplate.isEmptyT (d : SparseTemplate) : Bool := d.objs.isEmpty

/-- Embeds the constructor `CSparseMatrix(const CSparseMatrixTemplate<T>&)`:
first `ASSERTMSG_(!data.empty(), ...)`, then a triplet of the template's
extents is filled through `insert_entry_fast` and compressed.  The failed
assertion is modelled as an `Except.error` carrying the assertion text. -/
def fromTemplate (data : SparseTemplate) : Except String CompressedForm :=
  if data.isEmptyT then
    .error "Input data must contain at least one non-zero element."
  else
    .ok (compressFromTriplet
      (data.objs.foldl (fun T e => insert_entry_fast T e.1.1 e.1.2 e.2)
        (tripletInit data.rows data.cols)))

/-! ## Arithmetic on compressed matrices -/

/-- Modelled from the spec: `multiply_AB` (CSparse `cs_multiply`, not among
the given sources).  Column `j` of the result is the linear combination of
A's columns weighted by the non-zero entries of B's column `j`; duplicate
coordinate contributions are summed, never overwritten; the result has
extents `A.rows × B.cols`. -/
def multiply_AB (A B : CompressedForm) : CompressedForm :=
  ⟨A.m, B.n, B.cols.map fun colB =>
    consolidate (colB.flatMap fun e =>
      (A.cols.getD e.1 []).map fun rv => (rv.1, e.2 * rv.2))⟩

/-- Modelled from the spec: `transpose` (CSparse `cs_transpose`, not among
the given sources) swaps the row/column roles, keeping the same stored
entries; no ordering of the slots within a column is required. -/
def transposeSM (A : CompressedForm) : CompressedForm :=
  ⟨A.n, A.m, (List.range A.m).map fun r =>
    (List.range A.n).flatMap fun c =>
      ((A.cols.getD c []).filter fun e => e.1 == r).map fun e => (c, e.2)⟩

/-! ## The Cholesky engine

Modelled from the spec over the real numbers.  The engine consumes a square
column-compressed matrix; sparsity affects only cost, so the numeric
content is modelled on the matrix as a function of its coordinates. -/

/-- The failure surfaced by the factorization, mirroring the header's
`CExceptionNotDefPos` ("On non-definite-positive matrix as input"). -/
inductive CholeskyError where
  | notDefPos

/-- Symmetry of a square real matrix. -/
def matSymm {n : ℕ} (A : Matrix (Fin n) (Fin n) ℝ) : Prop :=
  ∀ i j, A i j = A j i

/-- Positive definiteness of a square real matrix. -/
def matPosDef {n : ℕ} (A : Matrix (Fin n) (Fin n) ℝ) : Prop :=
  ∀ x : Fin n → ℝ, x ≠ 0 → 0 < Matrix.dotProduct x (A.mulVec x)

/-- Lower-triangularity: everything strictly above the diagonal is zero. -/
def lowerTri {n : ℕ} (L : Matrix (Fin n) (Fin n) ℝ) : Prop :=
  ∀ i j : Fin n, (i : ℕ) < (j : ℕ) → L i j = 0

/-- Upper-triangularity: everything strictly below the diagonal is zero. -/
def upperTri {n : ℕ} (U : Matrix (Fin n) (Fin n) ℝ) : Prop :=
  ∀ i j : Fin n, (j : ℕ) < (i : ℕ) → U i j = 0

/-- The trailing principal submatrix. -/
def subMat {n : ℕ} (A : Matrix (Fin (n+1)) (Fin (n+1)) ℝ) :
    Matrix (Fin n) (Fin n) ℝ :=
  A.submatrix Fin.succ Fin.succ

/-- One elimination step of the factorization: the Schur complement of the
leading pivot. -/
noncomputable def schurStep {n : ℕ} (A : Matrix (Fin (n+1)) (Fin (n+1)) ℝ) :
    Matrix (Fin n) (Fin n) ℝ :=
  Matrix.of fun i j => A i.succ j.succ - A i.succ 0 * A 0 j.succ / A 0 0

/-- Assembly of one elimination step's output: the leading column of `L`
(`sqrt a` stacked over `A[i,0]/sqrt a`), a zero leading row, and the factor
of the Schur complement as trailing block. -/
noncomputable def cholAssemble {n : ℕ} (A : Matrix (Fin (n+1)) (Fin (n+1)) ℝ)
    (L' : Matrix (Fin n) (Fin n) ℝ) : Matrix (Fin (n+1)) (Fin (n+1)) ℝ :=
  Matrix.of fun i j =>
    Fin.cases
      (Fin.cases (Real.sqrt (A 0 0)) (fun _ => (0:ℝ)) j)
      (fun i' => Fin.cases (A i'.succ 0 / Real.sqrt (A 0 0))
        (fun j' => L' i' j') j)
      i

/-- Modelled from the spec: the numeric factorization `cs_chol` (not among
the given sources).  Elimination proceeds pivot by pivot: a non-positive
pivot (zero or negative diagonal value) aborts with `notDefPos`; otherwise
the pivot column of `L` is `sqrt a` stacked over `A[i,0]/sqrt a`, and
elimination recurses on the Schur complement. -/
noncomputable def cs_chol : (n : ℕ) → Matrix (Fin n) (Fin n) ℝ →
    Except CholeskyError (Matrix (Fin n) (Fin n) ℝ)
  | 0, _ => .ok 0
  | n+1, A =>
    if 0 < A 0 0 then
      match cs_chol n (schurStep A) with
      | .error e => .error e
      | .ok L => .ok (cholAssemble A L)
    else .error .notDefPos

/-- Modelled from the spec: forward substitution `cs_lsolve` (not among the
given sources), solving `L·y = b` for lower-triangular `L` by peeling the
leading unknown. -/
noncomputable def cs_lsolve : (n : ℕ) → Matrix (Fin n) (Fin n) ℝ →
    (Fin n → ℝ) → (Fin n → ℝ)
  | 0, _, _ => 0
  | n+1, L, b =>
    Fin.cons (b 0 / L 0 0)
      (cs_lsolve n (subMat L)
        (fun i => b i.succ - L i.succ 0 * (b 0 / L 0 0)))

/-- Index-reversal of a square matrix (both coordinates). -/
def flipMat {n : ℕ} (M : Matrix (Fin n) (Fin n) ℝ) : Matrix (Fin n) (Fin n) ℝ :=
  Matrix.of fun i j => M i.rev j.rev

/-- Index-reversal of a vector. -/
def flipVec {n : ℕ} (v : Fin n → ℝ) : Fin n → ℝ := fun i => v i.rev

/-- Modelled from the spec: backward substitution `cs_ltsolve` (not among
the given sources), solving `U·z = y` for upper-triangular `U`; realized as
forward substitution on the index-reversed system. -/
noncomputable def cs_usolve (n : ℕ) (U : Matrix (Fin n) (Fin n) ℝ)
    (b : Fin n → ℝ) : Fin n → ℝ :=
  flipVec (cs_lsolve n (flipMat U) (flipVec b))

/-- Modelled from the spec: the symbolic analysis `cs_schol` (not among the
given sources) chooses a fill-reducing ordering; the ordering affects only
cost and fill, not the mathematical content, and is modelled as the
identity permutation. -/
def cs_schol (n : ℕ) (_A : Matrix (Fin n) (Fin n) ℝ) : Equiv.Perm (Fin n) :=
  Equiv.refl _

/-- The permuted matrix `P·A·Pᵗ`: entry `(i,j)` reads `A (P i) (P j)`. -/
def permApplied {n : ℕ} (P : Equiv.Perm (Fin n))
    (A : Matrix (Fin n) (Fin n) ℝ) : Matrix (Fin n) (Fin n) ℝ :=
  A.submatrix P P

/-- The `CSparseMatrix::CholeskyDecomp` object: the permutation chosen by
symbolic analysis, the numeric lower-triangular factor, and the structural
fingerprint of the source captured at construction. -/
structure CholeskyDecomp (n : ℕ) where
  perm : Equiv.Perm (Fin n)
  L : Matrix (Fin n) (Fin n) ℝ
  fingerprint : Set (Fin n × Fin n)

/-- Modelled from the spec: the constructor `CholeskyDecomp(A)` runs the
symbolic analysis, then the numeric factorization of the permuted matrix;
failure (`CExceptionNotDefPos`) yields no object at all. -/
noncomputable def CholeskyDecomp.construct {n : ℕ}
    (A : Matrix (Fin n) (Fin n) ℝ) : Except CholeskyError (CholeskyDecomp n) :=
  match cs_chol n (permApplied (cs_schol n A) A) with
  | .error e => .error e
  | .ok L => .ok ⟨cs_schol n A, L, {q | A q.1 q.2 ≠ 0}⟩

/-- Embeds `CholeskyDecomp::get_L`: the factor held by the object. -/
def CholeskyDecomp.get_L {n : ℕ} (F : CholeskyDecomp n) :
    Matrix (Fin n) (Fin n) ℝ := F.L

/-- Modelled from the spec: `CholeskyDecomp::backsub` permutes `b`, forward
substitutes `L·y = P·b`, back substitutes `Lᵗ·z = y`, and un-permutes `z`. -/
noncomputable def CholeskyDecomp.backsub {n : ℕ} (F : CholeskyDecomp n)
    (b : Fin n → ℝ) : Fin n → ℝ :=
  fun i => cs_usolve n F.L.transpose (cs_lsolve n F.L fun k => b (F.perm k)) (F.perm.symm i)

/-- Modelled from the spec: `CholeskyDecomp::update` re-runs only the
numeric factorization of the new matrix against the existing symbolic
analysis (the stored permutation), keeping the symbolic state. -/
noncomputable def CholeskyDecomp.update {n : ℕ} (F : CholeskyDecomp n)
    (newSM : Matrix (Fin n) (Fin n) ℝ) : Except CholeskyError (CholeskyDecomp n) :=
  match cs_chol n (permApplied F.perm newSM) with
  | .error e => .error e
  | .ok L => .ok ⟨F.perm, L, F.fingerprint⟩

/-- Modelled from the spec: what `get_L` returns when called while the
(current, possibly since mutated) source matrix holds `currentSource`; the
result reads only the factor's own state. -/
def CholeskyDecomp.get_L_observed {n : ℕ} (F : CholeskyDecomp n)
    (_currentSource : Matrix (Fin n) (Fin n) ℝ) : Matrix (Fin n) (Fin n) ℝ :=
  F.get_L

/-- Modelled from the spec: what `backsub` returns when called while the
(current, possibly since mutated) source matrix holds `currentSource`; the
result reads only the factor's own state. -/
noncomputable def CholeskyDecomp.backsub_observed {n : ℕ} (F : CholeskyDecomp n)
    (_currentSource : Matrix (Fin n) (Fin n) ℝ) (b : Fin n → ℝ) : Fin n → ℝ :=
  F.backsub b

/-! ## Auxiliary facts about list sums -/

theorem listSum_range_eq {M : Type} [AddCommMonoid M] (n : ℕ) (f : ℕ → M) :
    ((List.range n).map f).sum = ∑ i ∈ Finset.range n, f i := by
  induction n with
  | zero => simp
  | succ k ih => rw [List.range_succ, Finset.sum_range_succ, List.map_append,
      List.sum_append, ih]; simp

theorem colValueAt_nil (r : ℕ) : colValueAt [] r = 0 := rfl

theorem colValueAt_cons (e : ℕ × ℚ) (l : List (ℕ × ℚ)) (r : ℕ) :
    colValueAt (e :: l) r = (if e.1 = r then e.2 else 0) + colValueAt l r := by
  by_cases h : e.1 = r <;> simp [colValueAt, List.filter_cons, h]

theorem colValueAt_append (l₁ l₂ : List (ℕ × ℚ)) (r : ℕ) :
    colValueAt (l₁ ++ l₂) r = colValueAt l₁ r + colValueAt l₂ r := by
  simp [colValueAt, List.filter_append]

theorem colValueAt_eq_zero_of_not_mem {l : List (ℕ × ℚ)} {r : ℕ}
    (h : r ∉ l.map Prod.fst) : colValueAt l r = 0 := by
  have : l.filter (fun e => e.1 == r) = [] := by
    refine List.filter_eq_nil_iff.mpr ?_
    intro e he hbe
    exact h (List.mem_map.mpr ⟨e, he, by simpa using hbe⟩)
  simp [colValueAt, this]

theorem filter_beq_of_nodup (l : List ℕ) (hl : l.Nodup) (r : ℕ) :
    l.filter (fun k => k == r) = if r ∈ l then [r] else [] := by
  induction l with
  | nil => simp
  | cons a t ih =>
    rcases List.nodup_cons.mp hl with ⟨ha, ht⟩
    by_cases har : a = r
    · subst har
      simp [List.filter_cons, ih ht, ha]
    · simp [List.filter_cons, har, ih ht, Ne.symm har]

theorem filter_fst_map_keyed (g : ℕ → ℚ) (keys : List ℕ) (r : ℕ) :
    ((keys.map fun k => (k, g k)).filter fun e => e.1 == r)
      = (keys.filter fun k => k == r).map fun k => (k, g k) := by
  rw [List.filter_map]
  rfl

theorem colValueAt_keyed_map (g : ℕ → ℚ) (keys : List ℕ) (r : ℕ) :
    colValueAt (keys.map fun k => (k, g k)) r
      = ((keys.filter fun k => k == r).map g).sum := by
  unfold colValueAt
  rw [filter_fst_map_keyed, List.map_map]
  rfl

theorem colValueAt_consolidate (ps : List (ℕ × ℚ)) (r : ℕ) :
    colValueAt (consolidate ps) r = colValueAt ps r := by
  unfold consolidate
  rw [colValueAt_keyed_map, filter_beq_of_nodup _ (List.nodup_dedup _) r]
  by_cases hmem : r ∈ (ps.map Prod.fst).dedup
  · simp [hmem]
  · rw [if_neg hmem]
    have h0 : colValueAt ps r = 0 :=
      colValueAt_eq_zero_of_not_mem (fun h => hmem (List.mem_dedup.mpr h))
    simp [h0]

theorem countAt_consolidate (ps : List (ℕ × ℚ)) (r : ℕ) :
    ((consolidate ps).filter fun e => e.1 == r).length ≤ 1 := by
  unfold consolidate
  rw [filter_fst_map_keyed, filter_beq_of_nodup _ (List.nodup_dedup _) r]
  by_cases hmem : r ∈ (ps.map Prod.fst).dedup <;> simp [hmem]

theorem getD_range_map {α : Type} (f : ℕ → α) (n c : ℕ) (d : α) (h : c < n) :
    ((List.range n).map f).getD c d = f c := by
  rw [List.getD_eq_getElem?_getD, List.getElem?_map, List.getElem?_range h]
  rfl

/-! ## Compression: general facts -/

theorem compress_cols_getD (T : TripletForm) (c : ℕ) (h : c < T.n) :
    (compressFromTriplet T).cols.getD c [] = consolidate (columnOf T c) :=
  getD_range_map _ _ _ _ h

theorem colValueAt_columnOf (T : TripletForm) (r c : ℕ) :
    colValueAt (columnOf T c) r = T.dense r c := by
  unfold colValueAt columnOf TripletForm.dense entriesSumAt
  rw [List.filter_map, List.filter_filter]
  have hpred : (fun (e : ℕ × ℕ × ℚ) =>
      ((fun (p : ℕ × ℚ) => p.1 == r) ∘ fun e => (e.1, e.2.2)) e && (e.2.1 == c))
      = fun e => e.1 == r && e.2.1 == c := rfl
  rw [hpred, List.map_map]
  rfl

theorem dense_compress (T : TripletForm) (r c : ℕ) (h : c < T.n) :
    (compressFromTriplet T).dense r c = T.dense r c := by
  unfold CompressedForm.dense
  rw [compress_cols_getD T c h, colValueAt_consolidate, colValueAt_columnOf]

theorem dense_compress_hi (T : TripletForm) (r c : ℕ) (h : T.n ≤ c) :
    (compressFromTriplet T).dense r c = 0 := by
  unfold CompressedForm.dense
  rw [List.getD_eq_default]
  · rfl
  · simpa [compressFromTriplet] using h

theorem countAt_compress (T : TripletForm) (r c : ℕ) :
    (compressFromTriplet T).countAt r c ≤ 1 := by
  unfold CompressedForm.countAt
  by_cases h : c < T.n
  · rw [compress_cols_getD T c h]
    exact countAt_consolidate _ r
  · rw [List.getD_eq_default]
    · simp
    · simpa [compressFromTriplet] using le_of_not_lt h

/-! ## Triplet sums -/

theorem entriesSumAt_append (es₁ es₂ : List (ℕ × ℕ × ℚ)) (r c : ℕ) :
    entriesSumAt (es₁ ++ es₂) r c = entriesSumAt es₁ r c + entriesSumAt es₂ r c := by
  simp [entriesSumAt, List.filter_append]

theorem entriesSumAt_flatMap {α : Type} (l : List α) (f : α → List (ℕ × ℕ × ℚ))
    (r c : ℕ) :
    entriesSumAt (l.flatMap f) r c = (l.map fun a => entriesSumAt (f a) r c).sum := by
  induction l with
  | nil => simp [entriesSumAt]
  | cons a t ih => simp [List.flatMap_cons, entriesSumAt_append, ih]

theorem entriesSumAt_perm {es es' : List (ℕ × ℕ × ℚ)} (h : es.Perm es') (r c : ℕ) :
    entriesSumAt es r c = entriesSumAt es' r c :=
  ((h.filter _).map _).sum_eq

theorem tripletOfDense_dense (m n : ℕ) (D : ℕ → ℕ → ℚ) (r c : ℕ)
    (hr : r < m) (hc : c < n) : (tripletOfDense m n D).dense r c = D r c := by
  unfold tripletOfDense TripletForm.dense
  rw [entriesSumAt_flatMap, listSum_range_eq]
  have hinner : ∀ c' : ℕ, entriesSumAt
      ((List.range m).filterMap fun r' =>
        if D r' c' ≠ 0 then some (r', c', D r' c') else none) r c
      = if c' = c then D r c else 0 := by
    intro c'
    rw [List.filterMap_eq_flatMap_toList, entriesSumAt_flatMap, listSum_range_eq]
    have hcell : ∀ r' : ℕ, entriesSumAt
        (if D r' c' ≠ 0 then some (r', c', D r' c') else none).toList r c
        = if r' = r ∧ c' = c then D r' c' else 0 := by
      intro r'
      by_cases hz : D r' c' ≠ 0
      · rw [if_pos hz]
        by_cases hrc : r' = r ∧ c' = c
        · simp [entriesSumAt, List.filter_cons, hrc.1, hrc.2, if_pos hrc]
        · rw [if_neg hrc]
          rcases not_and_or.mp hrc with hne | hne <;>
            simp [entriesSumAt, List.filter_cons, hne]
      · rw [if_neg hz]
        push_neg at hz
        by_cases hrc : r' = r ∧ c' = c
        · have hz' : D r c = 0 := by rw [← hrc.1, ← hrc.2]; exact hz
          simp [entriesSumAt, if_pos hrc, hrc.1, hrc.2, hz']
        · simp [entriesSumAt, if_neg hrc]
    rw [Finset.sum_congr rfl fun r' _ => hcell r']
    by_cases hcc : c' = c
    · subst hcc
      simp only [and_true]
      rw [Finset.sum_ite_eq' (Finset.range m) r (fun r' => D r' c')]
      simp [Finset.mem_range.mpr hr]
    · simp [hcc]
  rw [Finset.sum_congr rfl fun c' _ => hinner c']
  rw [Finset.sum_ite_eq' (Finset.range n) c (fun _ => D r c)]
  simp [Finset.mem_range.mpr hc]

/-! ## Column-value bookkeeping for transpose and multiplication -/

theorem colValueAt_flatMap {α : Type} (l : List α) (f : α → List (ℕ × ℚ)) (r : ℕ) :
    colValueAt (l.flatMap f) r = (l.map fun a => colValueAt (f a) r).sum := by
  induction l with
  | nil => simp [colValueAt]
  | cons a t ih => simp [List.flatMap_cons, colValueAt_append, ih]

theorem colValueAt_relabel (l : List (ℕ × ℚ)) (c k : ℕ) :
    colValueAt (l.map fun e => (c, e.2)) k
      = if c = k then (l.map Prod.snd).sum else 0 := by
  unfold colValueAt
  rw [List.filter_map, List.map_map]
  by_cases h : c = k
  · subst h
    have hp : ((fun (e : ℕ × ℚ) => e.1 == c) ∘ fun (e : ℕ × ℚ) => (c, e.2))
        = fun _ => true := by
      funext e; simp
    have hm : (Prod.snd ∘ fun (e : ℕ × ℚ) => (c, e.2)) = Prod.snd := rfl
    rw [hp, hm, List.filter_true, if_pos rfl]
  · have hp : ((fun (e : ℕ × ℚ) => e.1 == k) ∘ fun (e : ℕ × ℚ) => (c, e.2))
        = fun _ => false := by
      funext e; simp [h]
    rw [hp, List.filter_false, if_neg h]
    simp

theorem colValueAt_scaled_map (col : List (ℕ × ℚ)) (b : ℚ) (r : ℕ) :
    colValueAt (col.map fun rv => (rv.1, b * rv.2)) r = b * colValueAt col r := by
  unfold colValueAt
  rw [List.filter_map]
  have hpred : ((fun (e : ℕ × ℚ) => e.1 == r) ∘ fun rv => (rv.1, b * rv.2))
      = fun (e : ℕ × ℚ) => e.1 == r := rfl
  rw [hpred, List.map_map]
  exact List.sum_map_mul_left _ Prod.snd b

theorem sum_colValueAt_mul (colB : List (ℕ × ℚ)) (g : ℕ → ℚ) (N : ℕ)
    (hkeys : ∀ e ∈ colB, e.1 < N) :
    (colB.map fun e => e.2 * g e.1).sum
      = ∑ k ∈ Finset.range N, colValueAt colB k * g k := by
  induction colB with
  | nil => simp [colValueAt]
  | cons e t ih =>
    have he : e.1 ∈ Finset.range N := Finset.mem_range.mpr (hkeys e (by simp))
    have ht : ∀ e' ∈ t, e'.1 < N := fun e' h => hkeys e' (List.mem_cons_of_mem _ h)
    rw [List.map_cons, List.sum_cons, ih ht]
    have hsplit : ∀ k, colValueAt (e :: t) k * g k
        = (if e.1 = k then e.2 * g k else 0) + colValueAt t k * g k := by
      intro k
      rw [colValueAt_cons, add_mul, ite_mul, zero_mul]
    rw [Finset.sum_congr rfl fun k _ => hsplit k, Finset.sum_add_distrib,
      Finset.sum_ite_eq (Finset.range N) e.1 (fun k => e.2 * g k), if_pos he]

theorem getD_map {α β : Type} (l : List α) (f : α → β) (c : ℕ) (d : β) (d' : α)
    (h : c < l.length) : (l.map f).getD c d = f (l.getD c d') := by
  rw [List.getD_eq_getElem _ _ (by simpa using h), List.getElem_map,
    List.getD_eq_getElem _ _ h]

theorem length_filter_fst_partition (col : List (ℕ × ℚ)) (m : ℕ)
    (hcol : ∀ e ∈ col, e.1 < m) :
    ∑ r ∈ Finset.range m, (col.filter fun e => e.1 == r).length = col.length := by
  induction col with
  | nil => simp
  | cons e t ih =>
    have he : e.1 ∈ Finset.range m := Finset.mem_range.mpr (hcol e (by simp))
    have ht : ∀ e' ∈ t, e'.1 < m := fun e' h => hcol e' (List.mem_cons_of_mem _ h)
    have hsplit : ∀ r, ((e :: t).filter fun e' => e'.1 == r).length
        = (if e.1 = r then 1 else 0) + (t.filter fun e' => e'.1 == r).length := by
      intro r
      by_cases h : e.1 = r <;> simp [List.filter_cons, h] <;> omega
    rw [Finset.sum_congr rfl fun r _ => hsplit r, Finset.sum_add_distrib, ih ht,
      Finset.sum_ite_eq (Finset.range m) e.1 (fun _ => 1), if_pos he]
    simp [Nat.add_comm]

theorem sum_getD_eq_sum_map {α : Type} {M : Type} [AddCommMonoid M]
    (l : List α) (d : α) (f : α → M) :
    ∑ c ∈ Finset.range l.length, f (l.getD c d) = (l.map f).sum := by
  induction l with
  | nil => simp
  | cons a t ih =>
    rw [List.length_cons, Finset.sum_range_succ' (fun c => f ((a :: t).getD c d)) t.length]
    simp only [List.getD_cons_succ, List.getD_cons_zero, ih]
    rw [List.map_cons, List.sum_cons, add_comm]

theorem dense_row_hi (A : CompressedForm) (hwf : A.Wf) (r c : ℕ) (hr : A.m ≤ r) :
    A.dense r c = 0 := by
  unfold CompressedForm.dense
  apply colValueAt_eq_zero_of_not_mem
  intro hmem
  rcases List.mem_map.mp hmem with ⟨e, he, hfst⟩
  by_cases hc : c < A.cols.length
  · have hcol : A.cols.getD c [] ∈ A.cols := by
      rw [List.getD_eq_getElem _ _ hc]
      exact List.getElem_mem hc
    have := hwf.2 _ hcol e he
    omega
  · rw [List.getD_eq_default _ _ (le_of_not_lt hc)] at he
    exact absurd he (List.not_mem_nil e)

theorem dense_col_hi (A : CompressedForm) (r c : ℕ) (hlen : A.cols.length ≤ c) :
    A.dense r c = 0 := by
  unfold CompressedForm.dense
  rw [List.getD_eq_default _ _ hlen]
  rfl

/-! ## Transpose: general facts -/

theorem transpose_cols_length (A : CompressedForm) :
    (transposeSM A).cols.length = A.m := by
  simp [transposeSM]

theorem wf_transpose (A : CompressedForm) (hwf : A.Wf) : (transposeSM A).Wf := by
  constructor
  · simp [transposeSM]
  · intro col hcol e he
    rcases List.mem_map.mp hcol with ⟨r, _, hcoleq⟩
    rw [← hcoleq] at he
    rcases List.mem_flatMap.mp he with ⟨c, hc, hmem⟩
    rcases List.mem_map.mp hmem with ⟨e', _, heq⟩
    have : e.1 = c := by rw [← heq]
    simpa [transposeSM, this] using List.mem_range.mp hc

theorem dense_transpose (A : CompressedForm) (hwf : A.Wf) (x y : ℕ) :
    (transposeSM A).dense x y = A.dense y x := by
  by_cases hy : y < A.m
  · have hcols : (transposeSM A).cols.getD y []
        = (List.range A.n).flatMap fun c =>
            ((A.cols.getD c []).filter fun e => e.1 == y).map fun e => (c, e.2) :=
      getD_range_map _ _ _ _ hy
    unfold CompressedForm.dense
    rw [hcols, colValueAt_flatMap, listSum_range_eq]
    have hinner : ∀ c : ℕ,
        colValueAt (((A.cols.getD c []).filter fun e => e.1 == y).map fun e => (c, e.2)) x
          = if c = x then colValueAt (A.cols.getD c []) y else 0 := by
      intro c
      rw [colValueAt_relabel]
      rfl
    rw [Finset.sum_congr rfl fun c _ => hinner c,
      Finset.sum_ite_eq' (Finset.range A.n) x (fun c => colValueAt (A.cols.getD c []) y)]
    by_cases hx : x < A.n
    · rw [if_pos (Finset.mem_range.mpr hx)]
    · rw [if_neg (fun hmem => hx (Finset.mem_range.mp hmem))]
      exact (dense_col_hi A y x (hwf.1 ▸ le_of_not_lt hx)).symm
  · rw [dense_col_hi (transposeSM A) x y (by
        rw [transpose_cols_length]; exact le_of_not_lt hy),
      dense_row_hi A hwf y x (le_of_not_lt hy)]

theorem nnz_transpose (A : CompressedForm) (hwf : A.Wf) :
    (transposeSM A).nnz = A.nnz := by
  unfold CompressedForm.nnz
  rw [show (transposeSM A).cols = (List.range A.m).map fun r =>
      (List.range A.n).flatMap fun c =>
        ((A.cols.getD c []).filter fun e => e.1 == r).map fun e => (c, e.2) from rfl]
  rw [List.length_flatten, List.map_map, listSum_range_eq, List.length_flatten]
  have hrow : ∀ r : ℕ, (List.length ∘ fun r => (List.range A.n).flatMap fun c =>
      ((A.cols.getD c []).filter fun e => e.1 == r).map fun e => (c, e.2)) r
      = ∑ c ∈ Finset.range A.n, ((A.cols.getD c []).filter fun e => e.1 == r).length := by
    intro r
    show ((List.range A.n).flatMap fun c =>
      ((A.cols.getD c []).filter fun e => e.1 == r).map fun e => (c, e.2)).length = _
    rw [show ((List.range A.n).flatMap fun c =>
        ((A.cols.getD c []).filter fun e => e.1 == r).map fun e => (c, e.2))
        = ((List.range A.n).map fun c =>
        ((A.cols.getD c []).filter fun e => e.1 == r).map fun e => (c, e.2)).flatten
        from rfl]
    rw [List.length_flatten, List.map_map]
    rw [listSum_range_eq]
    refine Finset.sum_congr rfl fun c _ => ?_
    simp
  rw [Finset.sum_congr rfl fun r _ => hrow r, Finset.sum_comm]
  have hcol : ∀ c ∈ Finset.range A.n,
      (∑ r ∈ Finset.range A.m, ((A.cols.getD c []).filter fun e => e.1 == r).length)
        = (A.cols.getD c []).length := by
    intro c hc
    refine length_filter_fst_partition _ _ fun e he => ?_
    have hcl : c < A.cols.length := hwf.1 ▸ Finset.mem_range.mp hc
    have hcolmem : A.cols.getD c [] ∈ A.cols := by
      rw [List.getD_eq_getElem _ _ hcl]
      exact List.getElem_mem hcl
    exact hwf.2 _ hcolmem e he
  rw [Finset.sum_congr rfl hcol]
  rw [show (Finset.range A.n) = Finset.range A.cols.length by rw [hwf.1]]
  rw [sum_getD_eq_sum_map A.cols [] List.length]

/-! ## Claim theorems: the container -/

/-- Claim C2: for every dense matrix `D`, building a triplet matrix from its
cells, compressing it, and expanding back reproduces `D` exactly at every
in-range coordinate: absent coordinates read zero, stored ones their exact
value. -/
theorem claim_C2_dense_roundtrip (m n : ℕ) (D : ℕ → ℕ → ℚ) (r c : ℕ)
    (hr : r < m) (hc : c < n) :
    (compressFromTriplet (tripletOfDense m n D)).m = m
    ∧ (compressFromTriplet (tripletOfDense m n D)).n = n
    ∧ (compressFromTriplet (tripletOfDense m n D)).dense r c = D r c := by
  refine ⟨rfl, rfl, ?_⟩
  rw [dense_compress _ _ _ (show c < (tripletOfDense m n D).n from hc)]
  exact tripletOfDense_dense m n D r c hr hc

/-- Concrete instance of claim C2 at a 2×2 diagonal matrix. -/
theorem claim_C2_dense_roundtrip_witness :
    (compressFromTriplet (tripletOfDense 2 2 fun r c => if r = c then 5 else 0)).dense 1 1
      = (fun r c => if r = c then (5:ℚ) else 0) 1 1 :=
  (claim_C2_dense_roundtrip 2 2 (fun r c => if r = c then 5 else 0) 1 1
    (by norm_num) (by norm_num)).2.2

/-- The per-column contents of the compressed duplicate-summation example:
the pair `(1,1,3)`, `(1,1,4)` collapses to the single slot `(1,7)` of
column 1. -/
theorem dupExample_cols :
    (compressFromTriplet dupExampleTriplet).cols = [[], [(1, 7)]] := by
  norm_num [compressFromTriplet, dupExampleTriplet, insert_entry, tripletInit,
    columnOf, consolidate, colValueAt, List.range_succ, List.filter_cons,
    List.dedup_cons_of_mem, List.dedup_cons_of_not_mem]

/-- Claim C3: compression sums all triplet entries sharing one coordinate
into at most one stored slot, preserving the summed value, independently of
insertion order; in particular inserting `(1,1,3.0)` then `(1,1,4.0)` then
compressing yields exactly one stored entry `(1,1,7.0)`. -/
theorem claim_C3_duplicate_summation (T T' : TripletForm) (r c : ℕ)
    (hc : c < T.n) (hn : T'.n = T.n) (hperm : T.entries.Perm T'.entries) :
    (compressFromTriplet T).countAt r c ≤ 1
    ∧ (compressFromTriplet T).dense r c = T.dense r c
    ∧ (compressFromTriplet T).dense r c = (compressFromTriplet T').dense r c
    ∧ (compressFromTriplet dupExampleTriplet).vals = [7]
    ∧ (compressFromTriplet dupExampleTriplet).rowInd = [1]
    ∧ (compressFromTriplet dupExampleTriplet).colPtr = [0, 0, 1]
    ∧ (compressFromTriplet dupExampleTriplet).nnz = 1 := by
  refine ⟨countAt_compress T r c, dense_compress T r c hc, ?_, ?_, ?_, ?_, ?_⟩
  · rw [dense_compress T r c hc, dense_compress T' r c (hn ▸ hc)]
    exact entriesSumAt_perm hperm r c
  · simp [CompressedForm.vals, dupExample_cols]
  · simp [CompressedForm.rowInd, dupExample_cols]
  · simp only [CompressedForm.colPtr]
    rw [dupExample_cols]
    simp [List.scanl]
  · simp [CompressedForm.nnz, dupExample_cols]

/-- Concrete instance of claim C3: the duplicate-summation example against
its reversed insertion order. -/
theorem claim_C3_duplicate_summation_witness :
    (compressFromTriplet dupExampleTriplet).nnz = 1 :=
  (claim_C3_duplicate_summation dupExampleTriplet ⟨2, 2, [(1,1,4), (1,1,3)]⟩ 1 1
    (by decide) (by decide) (by decide)).2.2.2.2.2.2

/-- Claim C8: transposing twice is the identity entrywise (same dimensions,
same value at every coordinate), and a single transpose keeps the nonzero
count while swapping the row and column roles. -/
theorem claim_C8_transpose_involution (A : CompressedForm) (hwf : A.Wf) :
    (transposeSM (transposeSM A)).m = A.m
    ∧ (transposeSM (transposeSM A)).n = A.n
    ∧ (∀ r c, (transposeSM (transposeSM A)).dense r c = A.dense r c)
    ∧ (transposeSM A).m = A.n
    ∧ (transposeSM A).n = A.m
    ∧ (∀ r c, (transposeSM A).dense c r = A.dense r c)
    ∧ (transposeSM A).nnz = A.nnz := by
  refine ⟨rfl, rfl, ?_, rfl, rfl, ?_, nnz_transpose A hwf⟩
  · intro r c
    rw [dense_transpose (transposeSM A) (wf_transpose A hwf) r c,
      dense_transpose A hwf c r]
  · intro r c
    exact dense_transpose A hwf c r

/-- Concrete instance of claim C8 at a 1×1 matrix holding the value 2. -/
theorem claim_C8_transpose_involution_witness :
    (transposeSM (transposeSM ⟨1, 1, [[(0, 2)]]⟩)).dense 0 0
        = CompressedForm.dense ⟨1, 1, [[(0, 2)]]⟩ 0 0
    ∧ (transposeSM (⟨1, 1, [[(0, 2)]]⟩ : CompressedForm)).nnz
        = CompressedForm.nnz ⟨1, 1, [[(0, 2)]]⟩ := by
  have h := claim_C8_transpose_involution ⟨1, 1, [[(0, 2)]]⟩ (by
    constructor
    · rfl
    · intro col hcol e he
      simp at hcol
      subst hcol
      simp at he
      simp [he])
  exact ⟨h.2.2.1 0 0, h.2.2.2.2.2.2⟩

/-- Claim C7: for compressed matrices of compatible inner dimension, the
dense expansion of `multiply_AB A B` is the conventional dense product of
the dense expansions, and the result has dimensions `A.rows × B.cols`
(operands with zero stored entries included: no non-emptiness is assumed). -/
theorem claim_C7_multiply_correct (A B : CompressedForm)
    (hwfA : A.Wf) (hwfB : B.Wf) (hdim : A.n = B.m) :
    (multiply_AB A B).m = A.m
    ∧ (multiply_AB A B).n = B.n
    ∧ ∀ r c, (multiply_AB A B).dense r c
        = ∑ k ∈ Finset.range A.n, A.dense r k * B.dense k c := by
  refine ⟨rfl, rfl, fun r c => ?_⟩
  by_cases hc : c < B.n
  · have hclen : c < B.cols.length := hwfB.1 ▸ hc
    have hgd : (multiply_AB A B).cols.getD c []
        = consolidate ((B.cols.getD c []).flatMap fun e =>
            (A.cols.getD e.1 []).map fun rv => (rv.1, e.2 * rv.2)) := by
      show ((B.cols.map _).getD c []) = _
      rw [getD_map B.cols _ c [] [] hclen]
    unfold CompressedForm.dense
    rw [hgd, colValueAt_consolidate, colValueAt_flatMap]
    have hinner : ∀ e ∈ B.cols.getD c [],
        colValueAt ((A.cols.getD e.1 []).map fun rv => (rv.1, e.2 * rv.2)) r
          = e.2 * A.dense r e.1 := by
      intro e _
      exact colValueAt_scaled_map _ e.2 r
    rw [List.map_eq_map_iff.mpr hinner]
    have hkeys : ∀ e ∈ B.cols.getD c [], e.1 < B.m := by
      intro e he
      have hcolmem : B.cols.getD c [] ∈ B.cols := by
        rw [List.getD_eq_getElem _ _ hclen]
        exact List.getElem_mem hclen
      exact hwfB.2 _ hcolmem e he
    rw [sum_colValueAt_mul (B.cols.getD c []) (fun k => A.dense r k) B.m hkeys]
    rw [← hdim]
    exact Finset.sum_congr rfl fun k _ => mul_comm _ _
  · have h1 : (multiply_AB A B).dense r c = 0 := by
      refine dense_col_hi _ r c ?_
      show (B.cols.map _).length ≤ c
      rw [List.length_map, hwfB.1]
      exact le_of_not_lt hc
    have h2 : ∀ k, B.dense k c = 0 := fun k =>
      dense_col_hi B k c (hwfB.1 ▸ le_of_not_lt hc)
    rw [h1]
    rw [Finset.sum_congr rfl fun k _ => by rw [h2 k, mul_zero]]
    simp

/-- Concrete instance of claim C7 at 1×1 operands holding 2 and 3. -/
theorem claim_C7_multiply_correct_witness :
    (multiply_AB ⟨1, 1, [[(0, 2)]]⟩ ⟨1, 1, [[(0, 3)]]⟩).dense 0 0
      = ∑ k ∈ Finset.range 1,
          CompressedForm.dense ⟨1, 1, [[(0, 2)]]⟩ 0 k
            * CompressedForm.dense ⟨1, 1, [[(0, 3)]]⟩ k 0 := by
  have hwf : ∀ q : ℚ, CompressedForm.Wf ⟨1, 1, [[(0, q)]]⟩ := by
    intro q
    constructor
    · rfl
    · intro col hcol e he
      simp at hcol
      subst hcol
      simp at he
      simp [he]
  exact (claim_C7_multiply_correct ⟨1, 1, [[(0, 2)]]⟩ ⟨1, 1, [[(0, 3)]]⟩
    (hwf 2) (hwf 3) rfl).2.2 0 0

/-- Claim C10: for every sparse matrix state, exactly one of `isTriplet` and
`isColumnCompressed` holds; the two predicates are each other's negation,
determined by the sign of the sentinel field `nz`. -/
theorem claim_C10_mode_exclusive (M : cs) :
    (M.isTriplet = !M.isColumnCompressed)
    ∧ ((M.isTriplet && M.isColumnCompressed) = false)
    ∧ ((M.isTriplet || M.isColumnCompressed) = true)
    ∧ (M.isTriplet = true ↔ 0 ≤ M.nz)
    ∧ (M.isColumnCompressed = true ↔ M.nz < 0) := by
  rcases le_or_lt 0 M.nz with h | h
  · have h2 : ¬ M.nz < 0 := not_lt.mpr h
    simp [cs.isTriplet, cs.isColumnCompressed, h, h2]
  · have h2 : ¬ 0 ≤ M.nz := not_le.mpr h
    simp [cs.isTriplet, cs.isColumnCompressed, h, h2]

/-- Claim C9: the constructor from a `CSparseMatrixTemplate` fails with the
assertion message exactly when the template holds no entries; an empty
template can never be converted by this constructor. -/
theorem claim_C9_template_ctor_requires_nonempty (data : SparseTemplate) :
    (fromTemplate data =
        Except.error "Input data must contain at least one non-zero element."
      ↔ data.objs = [])
    ∧ ((∃ M, fromTemplate data = Except.ok M) ↔ data.objs ≠ []) := by
  by_cases h : data.objs = []
  · constructor
    · simp [fromTemplate, SparseTemplate.isEmptyT, h]
    · simp [fromTemplate, SparseTemplate.isEmptyT, h]
  · have hne : data.isEmptyT = false := by
      simp [SparseTemplate.isEmptyT, h]
    constructor
    · simp [fromTemplate, hne, h]
    · simp [fromTemplate, hne, h]

/-! ## Cholesky: structural lemmas -/

theorem cholAssemble_zero_zero {n : ℕ} (A : Matrix (Fin (n+1)) (Fin (n+1)) ℝ)
    (L' : Matrix (Fin n) (Fin n) ℝ) :
    cholAssemble A L' 0 0 = Real.sqrt (A 0 0) := rfl

theorem cholAssemble_zero_succ {n : ℕ} (A : Matrix (Fin (n+1)) (Fin (n+1)) ℝ)
    (L' : Matrix (Fin n) (Fin n) ℝ) (j : Fin n) :
    cholAssemble A L' 0 j.succ = 0 := by
  simp [cholAssemble]

theorem cholAssemble_succ_zero {n : ℕ} (A : Matrix (Fin (n+1)) (Fin (n+1)) ℝ)
    (L' : Matrix (Fin n) (Fin n) ℝ) (i : Fin n) :
    cholAssemble A L' i.succ 0 = A i.succ 0 / Real.sqrt (A 0 0) := by
  simp [cholAssemble]

theorem cholAssemble_succ_succ {n : ℕ} (A : Matrix (Fin (n+1)) (Fin (n+1)) ℝ)
    (L' : Matrix (Fin n) (Fin n) ℝ) (i j : Fin n) :
    cholAssemble A L' i.succ j.succ = L' i j := by
  simp [cholAssemble]

theorem cs_chol_zero (A : Matrix (Fin 0) (Fin 0) ℝ) : cs_chol 0 A = .ok 0 := by
  rw [cs_chol]

theorem cs_chol_succ_ok {n : ℕ} {A : Matrix (Fin (n+1)) (Fin (n+1)) ℝ}
    {L : Matrix (Fin (n+1)) (Fin (n+1)) ℝ} (h : cs_chol (n+1) A = .ok L) :
    0 < A 0 0 ∧ ∃ L', cs_chol n (schurStep A) = .ok L' ∧ L = cholAssemble A L' := by
  rw [cs_chol] at h
  by_cases hp : 0 < A 0 0
  · rw [if_pos hp] at h
    cases hch : cs_chol n (schurStep A) with
    | error e => rw [hch] at h; exact absurd h (by simp)
    | ok L' =>
      rw [hch] at h
      simp only [Except.ok.injEq] at h
      exact ⟨hp, L', rfl, h.symm⟩
  · rw [if_neg hp] at h
    exact absurd h (by simp)

theorem cs_chol_succ_pos {n : ℕ} {A : Matrix (Fin (n+1)) (Fin (n+1)) ℝ}
    (hp : 0 < A 0 0) :
    cs_chol (n+1) A = match cs_chol n (schurStep A) with
      | .error e => .error e
      | .ok L => .ok (cholAssemble A L) := by
  rw [cs_chol, if_pos hp]

theorem cs_chol_succ_neg {n : ℕ} {A : Matrix (Fin (n+1)) (Fin (n+1)) ℝ}
    (hp : ¬ 0 < A 0 0) : cs_chol (n+1) A = .error .notDefPos := by
  rw [cs_chol, if_neg hp]

theorem chol_lower : ∀ (n : ℕ) (A L : Matrix (Fin n) (Fin n) ℝ),
    cs_chol n A = .ok L → lowerTri L := by
  intro n
  induction n with
  | zero => intro A L _ i; exact i.elim0
  | succ k ih =>
    intro A L h i j hij
    rcases cs_chol_succ_ok h with ⟨hp, L', hch, rfl⟩
    induction i using Fin.cases with
    | zero =>
      induction j using Fin.cases with
      | zero => exact absurd hij (by simp)
      | succ j' => exact cholAssemble_zero_succ A L' j'
    | succ i' =>
      induction j using Fin.cases with
      | zero => exact absurd hij (by simp)
      | succ j' =>
        rw [cholAssemble_succ_succ]
        refine ih (schurStep A) L' hch i' j' ?_
        simpa [Fin.val_succ] using hij

theorem chol_diag_pos : ∀ (n : ℕ) (A L : Matrix (Fin n) (Fin n) ℝ),
    cs_chol n A = .ok L → ∀ i, 0 < L i i := by
  intro n
  induction n with
  | zero => intro A L _ i; exact i.elim0
  | succ k ih =>
    intro A L h i
    rcases cs_chol_succ_ok h with ⟨hp, L', hch, rfl⟩
    induction i using Fin.cases with
    | zero =>
      rw [cholAssemble_zero_zero]
      exact Real.sqrt_pos.mpr hp
    | succ i' =>
      rw [cholAssemble_succ_succ]
      exact ih (schurStep A) L' hch i'

theorem schur_symm {n : ℕ} {A : Matrix (Fin (n+1)) (Fin (n+1)) ℝ}
    (hs : matSymm A) : matSymm (schurStep A) := by
  intro i j
  simp only [schurStep, Matrix.of_apply]
  rw [hs i.succ j.succ, hs i.succ 0, hs 0 j.succ]
  ring

theorem chol_spec : ∀ (n : ℕ) (A L : Matrix (Fin n) (Fin n) ℝ),
    matSymm A → cs_chol n A = .ok L → L * L.transpose = A := by
  intro n
  induction n with
  | zero =>
    intro A L _ _
    ext i
    exact i.elim0
  | succ k ih =>
    intro A L hs h
    rcases cs_chol_succ_ok h with ⟨hp, L', hch, rfl⟩
    have hL' : L' * L'.transpose = schurStep A := ih _ _ (schur_symm hs) hch
    have hsq : Real.sqrt (A 0 0) * Real.sqrt (A 0 0) = A 0 0 :=
      Real.mul_self_sqrt hp.le
    have hsne : Real.sqrt (A 0 0) ≠ 0 := ne_of_gt (Real.sqrt_pos.mpr hp)
    ext i j
    rw [Matrix.mul_apply]
    simp only [Matrix.transpose_apply]
    rw [Fin.sum_univ_succ]
    induction i using Fin.cases with
    | zero =>
      induction j using Fin.cases with
      | zero =>
        rw [cholAssemble_zero_zero,
          Finset.sum_eq_zero fun k' _ => by rw [cholAssemble_zero_succ, zero_mul],
          hsq, add_zero]
      | succ j' =>
        rw [cholAssemble_zero_zero, cholAssemble_succ_zero,
          Finset.sum_eq_zero fun k' _ => by rw [cholAssemble_zero_succ, zero_mul],
          add_zero, mul_comm, div_mul_cancel₀ _ hsne]
        exact (hs 0 j'.succ).symm ▸ (hs j'.succ 0)
    | succ i' =>
      induction j using Fin.cases with
      | zero =>
        rw [cholAssemble_succ_zero, cholAssemble_zero_zero,
          Finset.sum_eq_zero fun k' _ => by rw [cholAssemble_zero_succ, mul_zero],
          add_zero, div_mul_cancel₀ _ hsne]
      | succ j' =>
        rw [cholAssemble_succ_zero, cholAssemble_succ_zero]
        have hsum : (∑ k' : Fin k, cholAssemble A L' i'.succ k'.succ
            * cholAssemble A L' j'.succ k'.succ) = schurStep A i' j' := by
          rw [← hL', Matrix.mul_apply]
          refine Finset.sum_congr rfl fun k' _ => ?_
          rw [cholAssemble_succ_succ, cholAssemble_succ_succ,
            Matrix.transpose_apply]
        rw [hsum]
        simp only [schurStep, Matrix.of_apply]
        rw [div_mul_div_comm, hsq, hs 0 j'.succ]
        ring

/-! ## Cholesky: positive definiteness drives the pivots -/

theorem posDef_pivot_pos {n : ℕ} {A : Matrix (Fin (n+1)) (Fin (n+1)) ℝ}
    (hpd : matPosDef A) : 0 < A 0 0 := by
  have hx : (Fin.cons 1 0 : Fin (n+1) → ℝ) ≠ 0 := by
    intro heq
    have h0 := congrFun heq 0
    simp at h0
  have h := hpd (Fin.cons 1 0) hx
  have hdot : Matrix.dotProduct (Fin.cons 1 0 : Fin (n+1) → ℝ)
      (A.mulVec (Fin.cons 1 0)) = A 0 0 := by
    simp [Matrix.dotProduct, Matrix.mulVec, Fin.sum_univ_succ]
  rwa [hdot] at h

theorem posDef_schur {n : ℕ} {A : Matrix (Fin (n+1)) (Fin (n+1)) ℝ}
    (hs : matSymm A) (hpd : matPosDef A) : matPosDef (schurStep A) := by
  have ha : 0 < A 0 0 := posDef_pivot_pos hpd
  have ha' : A 0 0 ≠ 0 := ne_of_gt ha
  intro y hy
  set a := A 0 0 with hadef
  set s := ∑ j, A 0 j.succ * y j with hsdef
  set Q := ∑ i, y i * ∑ j, A i.succ j.succ * y j with hQdef
  set x : Fin (n+1) → ℝ := Fin.cons (-(s/a)) y with hxdef
  have hx : x ≠ 0 := by
    intro heq
    apply hy
    funext i
    have := congrFun heq i.succ
    simpa [hxdef] using this
  have hrowsum : (∑ i, y i * A i.succ 0) = s := by
    rw [hsdef]
    exact Finset.sum_congr rfl fun i _ => by rw [hs i.succ 0]; ring
  have hmv : ∀ i, (A.mulVec x) i = A i 0 * (-(s/a)) + ∑ j, A i j.succ * y j := by
    intro i
    simp [Matrix.mulVec, Matrix.dotProduct, Fin.sum_univ_succ, hxdef]
  have hL : Matrix.dotProduct x (A.mulVec x)
      = a * (-(s/a)) * (-(s/a)) + (-(s/a)) * s + s * (-(s/a)) + Q := by
    calc Matrix.dotProduct x (A.mulVec x)
        = ∑ i, x i * (A.mulVec x) i := rfl
      _ = (-(s/a)) * (A 0 0 * (-(s/a)) + ∑ j, A 0 j.succ * y j)
            + ∑ i, y i * (A i.succ 0 * (-(s/a)) + ∑ j, A i.succ j.succ * y j) := by
          rw [Fin.sum_univ_succ]
          congr 1
          · rw [hmv 0]
            simp [hxdef]
          · refine Finset.sum_congr rfl fun i _ => ?_
            rw [hmv i.succ]
            simp [hxdef]
      _ = (-(s/a)) * (a * (-(s/a)) + s)
            + ((∑ i, y i * A i.succ 0) * (-(s/a)) + Q) := by
          congr 1
          rw [Finset.sum_congr rfl fun i _ => mul_add (y i) (A i.succ 0 * (-(s/a)))
            (∑ j, A i.succ j.succ * y j), Finset.sum_add_distrib]
          congr 1
          rw [Finset.sum_mul]
          exact Finset.sum_congr rfl fun i _ => by ring
      _ = a * (-(s/a)) * (-(s/a)) + (-(s/a)) * s + s * (-(s/a)) + Q := by
          rw [hrowsum]
          ring
  have hmvS : ∀ i, ((schurStep A).mulVec y) i
      = (∑ j, A i.succ j.succ * y j) - A i.succ 0 * s / a := by
    intro i
    show (∑ j, schurStep A i j * y j) = _
    have hterm : ∀ j, schurStep A i j * y j
        = A i.succ j.succ * y j - A i.succ 0 / a * (A 0 j.succ * y j) := by
      intro j
      simp only [schurStep, Matrix.of_apply]
      ring
    rw [Finset.sum_congr rfl fun j _ => hterm j, Finset.sum_sub_distrib,
      ← Finset.mul_sum, ← hsdef]
    ring
  have hR : Matrix.dotProduct y ((schurStep A).mulVec y) = Q - s * s / a := by
    calc Matrix.dotProduct y ((schurStep A).mulVec y)
        = ∑ i, y i * ((∑ j, A i.succ j.succ * y j) - A i.succ 0 * s / a) :=
          Finset.sum_congr rfl fun i _ => by rw [hmvS i]
      _ = Q - (∑ i, y i * A i.succ 0) * s / a := by
          rw [Finset.sum_congr rfl fun i _ => mul_sub (y i)
            (∑ j, A i.succ j.succ * y j) (A i.succ 0 * s / a),
            Finset.sum_sub_distrib, ← hQdef]
          congr 1
          rw [Finset.sum_mul, Finset.sum_div]
          exact Finset.sum_congr rfl fun i _ => by ring
      _ = Q - s * s / a := by rw [hrowsum]
  have hxy : Matrix.dotProduct x (A.mulVec x)
      = Matrix.dotProduct y ((schurStep A).mulVec y) := by
    rw [hL, hR]
    field_simp
    ring
  have := hpd x hx
  rw [hxy] at this
  exact this

theorem chol_ok_of_posDef : ∀ (n : ℕ) (A : Matrix (Fin n) (Fin n) ℝ),
    matSymm A → matPosDef A → ∃ L, cs_chol n A = .ok L := by
  intro n
  induction n with
  | zero => intro A _ _; exact ⟨0, cs_chol_zero A⟩
  | succ k ih =>
    intro A hs hpd
    have hp : 0 < A 0 0 := posDef_pivot_pos hpd
    obtain ⟨L', hL'⟩ := ih (schurStep A) (schur_symm hs) (posDef_schur hs hpd)
    refine ⟨cholAssemble A L', ?_⟩
    rw [cs_chol_succ_pos hp, hL']

/-! ## Triangular solves -/

theorem flipMat_diag {n : ℕ} (M : Matrix (Fin n) (Fin n) ℝ) (i : Fin n) :
    flipMat M i i = M i.rev i.rev := rfl

theorem flipMat_flipMat {n : ℕ} (M : Matrix (Fin n) (Fin n) ℝ) :
    flipMat (flipMat M) = M := by
  ext i j
  simp [flipMat, Fin.rev_rev]

theorem flipVec_flipVec {n : ℕ} (v : Fin n → ℝ) : flipVec (flipVec v) = v := by
  funext i
  simp [flipVec, Fin.rev_rev]

theorem flip_lower {n : ℕ} {U : Matrix (Fin n) (Fin n) ℝ} (h : upperTri U) :
    lowerTri (flipMat U) := by
  intro i j hij
  refine h i.rev j.rev ?_
  have : j < i → (j.rev : Fin n) > i.rev := fun hlt => Fin.rev_lt_rev.mpr hlt
  have hlt : (i : Fin n) < j := Fin.lt_def.mpr hij
  have := Fin.rev_lt_rev.mpr hlt
  exact Fin.lt_def.mp this

theorem flip_mulVec {n : ℕ} (M : Matrix (Fin n) (Fin n) ℝ) (v : Fin n → ℝ) :
    (flipMat M).mulVec (flipVec v) = flipVec (M.mulVec v) := by
  funext i
  show (∑ j, flipMat M i j * flipVec v j) = (M.mulVec v) i.rev
  have h : ∀ j : Fin n, flipMat M i j * flipVec v j
      = (fun j => M i.rev j * v j) j.rev := fun j => rfl
  rw [Finset.sum_congr rfl fun j _ => h j]
  have hperm : (∑ j : Fin n, (fun j => M i.rev j * v j) j.rev)
      = ∑ j : Fin n, M i.rev j * v j := by
    have := Equiv.sum_comp (Fin.revPerm (n := n)) (fun j => M i.rev j * v j)
    simpa using this
  rw [hperm]
  rfl

theorem lsolve_mulVec : ∀ (n : ℕ) (L : Matrix (Fin n) (Fin n) ℝ) (b : Fin n → ℝ),
    lowerTri L → (∀ i, L i i ≠ 0) → L.mulVec (cs_lsolve n L b) = b := by
  intro n
  induction n with
  | zero => intro L b _ _; funext i; exact i.elim0
  | succ k ih =>
    intro L b hlow hd
    rw [cs_lsolve]
    funext i
    show (∑ j, L i j * (Fin.cons (b 0 / L 0 0)
        (cs_lsolve k (subMat L) fun i => b i.succ - L i.succ 0 * (b 0 / L 0 0))
        : Fin (k+1) → ℝ) j) = b i
    rw [Fin.sum_univ_succ]
    simp only [Fin.cons_zero, Fin.cons_succ]
    induction i using Fin.cases with
    | zero =>
      rw [Finset.sum_eq_zero fun j' _ => by
        rw [hlow 0 j'.succ (by simp), zero_mul]]
      rw [add_zero, mul_comm, div_mul_cancel₀ _ (hd 0)]
    | succ i' =>
      have hsub : (∑ j' : Fin k, L i'.succ j'.succ
          * cs_lsolve k (subMat L) (fun i => b i.succ - L i.succ 0 * (b 0 / L 0 0)) j')
          = (subMat L).mulVec (cs_lsolve k (subMat L)
              fun i => b i.succ - L i.succ 0 * (b 0 / L 0 0)) i' := by
        refine Finset.sum_congr rfl fun j' _ => ?_
        rfl
      rw [hsub, congrFun (ih (subMat L) (fun i => b i.succ - L i.succ 0 * (b 0 / L 0 0))
        (fun i j hij => hlow i.succ j.succ (by simpa using hij))
        (fun i => hd i.succ)) i']
      ring

theorem lower_mulVec_eq_zero : ∀ (n : ℕ) (L : Matrix (Fin n) (Fin n) ℝ),
    lowerTri L → (∀ i, L i i ≠ 0) → ∀ x, L.mulVec x = 0 → x = 0 := by
  intro n
  induction n with
  | zero => intro L _ _ x _; funext i; exact i.elim0
  | succ k ih =>
    intro L hlow hd x hx
    have h0 : x 0 = 0 := by
      have := congrFun hx 0
      rw [show (L.mulVec x) 0 = ∑ j, L 0 j * x j from rfl, Fin.sum_univ_succ,
        Finset.sum_eq_zero fun j' _ => by
          rw [hlow 0 j'.succ (by simp), zero_mul]] at this
      simp only [add_zero, Pi.zero_apply] at this
      exact (mul_eq_zero.mp this).resolve_left (hd 0)
    have hrest : (fun i => x i.succ) = (0 : Fin k → ℝ) := by
      refine ih (subMat L)
        (fun i j hij => hlow i.succ j.succ (by simpa using hij))
        (fun i => hd i.succ) _ ?_
      funext i'
      have := congrFun hx i'.succ
      rw [show (L.mulVec x) i'.succ = ∑ j, L i'.succ j * x j from rfl,
        Fin.sum_univ_succ, h0, mul_zero, zero_add] at this
      simpa [Matrix.mulVec, Matrix.dotProduct, subMat] using this
    funext i
    induction i using Fin.cases with
    | zero => exact h0
    | succ i' => exact congrFun hrest i'

theorem lower_mulVec_inj {n : ℕ} {L : Matrix (Fin n) (Fin n) ℝ}
    (hlow : lowerTri L) (hd : ∀ i, L i i ≠ 0) {x y : Fin n → ℝ}
    (h : L.mulVec x = L.mulVec y) : x = y := by
  have hz : L.mulVec (x - y) = 0 := by
    rw [Matrix.mulVec_sub, h, sub_self]
  have := lower_mulVec_eq_zero n L hlow hd (x - y) hz
  exact sub_eq_zero.mp this

theorem transpose_upper_of_lower {n : ℕ} {L : Matrix (Fin n) (Fin n) ℝ}
    (h : lowerTri L) : upperTri L.transpose :=
  fun i j hij => h j i hij

theorem usolve_mulVec (n : ℕ) (U : Matrix (Fin n) (Fin n) ℝ) (b : Fin n → ℝ)
    (hup : upperTri U) (hd : ∀ i, U i i ≠ 0) :
    U.mulVec (cs_usolve n U b) = b := by
  unfold cs_usolve
  have h1 : lowerTri (flipMat U) := flip_lower hup
  have h2 : ∀ i, flipMat U i i ≠ 0 := fun i => hd i.rev
  have h3 := lsolve_mulVec n (flipMat U) (flipVec b) h1 h2
  calc U.mulVec (flipVec (cs_lsolve n (flipMat U) (flipVec b)))
      = (flipMat (flipMat U)).mulVec (flipVec (cs_lsolve n (flipMat U) (flipVec b))) := by
        rw [flipMat_flipMat]
    _ = flipVec ((flipMat U).mulVec (cs_lsolve n (flipMat U) (flipVec b))) :=
        flip_mulVec _ _
    _ = flipVec (flipVec b) := by rw [h3]
    _ = b := flipVec_flipVec b

theorem upper_mulVec_eq_zero {n : ℕ} {U : Matrix (Fin n) (Fin n) ℝ}
    (hup : upperTri U) (hd : ∀ i, U i i ≠ 0) {x : Fin n → ℝ}
    (hx : U.mulVec x = 0) : x = 0 := by
  have h1 : (flipMat U).mulVec (flipVec x) = 0 := by
    rw [flip_mulVec, hx]
    funext i
    rfl
  have h2 : flipVec x = 0 :=
    lower_mulVec_eq_zero n (flipMat U) (flip_lower hup) (fun i => hd i.rev) _ h1
  funext i
  have := congrFun h2 i.rev
  simpa [flipVec, Fin.rev_rev] using this

theorem upper_mulVec_inj {n : ℕ} {U : Matrix (Fin n) (Fin n) ℝ}
    (hup : upperTri U) (hd : ∀ i, U i i ≠ 0) {x y : Fin n → ℝ}
    (h : U.mulVec x = U.mulVec y) : x = y := by
  have hz : U.mulVec (x - y) = 0 := by
    rw [Matrix.mulVec_sub, h, sub_self]
  exact sub_eq_zero.mp (upper_mulVec_eq_zero hup hd hz)

/-! ## Cholesky: claim theorems -/

theorem posDef_of_chol_ok (n : ℕ) (A L : Matrix (Fin n) (Fin n) ℝ)
    (hs : matSymm A) (h : cs_chol n A = .ok L) : matPosDef A := by
  have hspec := chol_spec n A L hs h
  have hlow := chol_lower n A L h
  have hdne : ∀ i, L i i ≠ 0 := fun i => ne_of_gt (chol_diag_pos n A L h i)
  intro x hx
  have hrw : Matrix.dotProduct x (A.mulVec x)
      = Matrix.dotProduct (L.transpose.mulVec x) (L.transpose.mulVec x) := by
    rw [← hspec, ← Matrix.mulVec_mulVec, Matrix.dotProduct_mulVec,
      Matrix.mulVec_transpose]
  rw [hrw]
  have hne : L.transpose.mulVec x ≠ 0 := by
    intro heq
    exact hx (upper_mulVec_eq_zero (transpose_upper_of_lower hlow)
      (fun i => hdne i) heq)
  have h0 : (0:ℝ) ≤ Matrix.dotProduct (L.transpose.mulVec x) (L.transpose.mulVec x) :=
    Finset.sum_nonneg fun i _ => mul_self_nonneg _
  rcases h0.lt_or_eq with h1 | h1
  · exact h1
  · exact absurd (Matrix.dotProduct_self_eq_zero.mp h1.symm) hne

theorem permApplied_refl {n : ℕ} (A : Matrix (Fin n) (Fin n) ℝ) :
    permApplied (cs_schol n A) A = A := by
  unfold permApplied cs_schol
  ext i j
  simp [Matrix.submatrix_apply]

/-- Claim C1: for every square, symmetric positive-definite matrix,
construction of the Cholesky decomposition succeeds and yields a
lower-triangular `L` with `P·A·Pᵗ = L·Lᵗ` under the permutation of the
symbolic analysis, and `backsub (A·x)` recovers `x` for every vector. -/
theorem claim_C1_cholesky_correct (n : ℕ) (A : Matrix (Fin n) (Fin n) ℝ)
    (hs : matSymm A) (hpd : matPosDef A) :
    ∃ F : CholeskyDecomp n, CholeskyDecomp.construct A = .ok F
      ∧ lowerTri F.get_L
      ∧ F.get_L * F.get_L.transpose = permApplied (cs_schol n A) A
      ∧ ∀ x : Fin n → ℝ, F.backsub (A.mulVec x) = x := by
  obtain ⟨L, hL⟩ := chol_ok_of_posDef n A hs hpd
  have hperm := permApplied_refl A
  refine ⟨⟨cs_schol n A, L, {q | A q.1 q.2 ≠ 0}⟩, ?_, ?_, ?_, ?_⟩
  · unfold CholeskyDecomp.construct
    rw [hperm, hL]
  · exact chol_lower n A L hL
  · show L * L.transpose = _
    rw [hperm]
    exact chol_spec n A L hs hL
  · intro x
    have hlow := chol_lower n A L hL
    have hdne : ∀ i, L i i ≠ 0 := fun i => ne_of_gt (chol_diag_pos n A L hL i)
    have hspec := chol_spec n A L hs hL
    have hfwd : cs_lsolve n L (A.mulVec x) = L.transpose.mulVec x := by
      refine lower_mulVec_inj hlow hdne ?_
      rw [lsolve_mulVec n L (A.mulVec x) hlow hdne, Matrix.mulVec_mulVec, hspec]
    have hbwd : cs_usolve n L.transpose (L.transpose.mulVec x) = x := by
      refine upper_mulVec_inj (transpose_upper_of_lower hlow) (fun i => hdne i) ?_
      rw [usolve_mulVec n L.transpose (L.transpose.mulVec x)
        (transpose_upper_of_lower hlow) (fun i => hdne i)]
    show (fun i => cs_usolve n L.transpose
        (cs_lsolve n L fun k => (A.mulVec x) ((cs_schol n A) k))
        ((cs_schol n A).symm i)) = x
    have hb : (fun k => (A.mulVec x) ((cs_schol n A) k)) = A.mulVec x := rfl
    rw [hb, hfwd]
    funext i
    rw [show ((cs_schol n A).symm i) = i from rfl, hbwd]

/-- Concrete instance of claim C1 at the 1×1 matrix holding 4. -/
theorem claim_C1_cholesky_correct_witness :
    ∃ F : CholeskyDecomp 1,
      CholeskyDecomp.construct (Matrix.of fun _ _ => (4:ℝ)) = .ok F
      ∧ lowerTri F.get_L
      ∧ F.get_L * F.get_L.transpose
          = permApplied (cs_schol 1 (Matrix.of fun _ _ => (4:ℝ)))
              (Matrix.of fun _ _ => (4:ℝ))
      ∧ ∀ x : Fin 1 → ℝ,
          F.backsub ((Matrix.of fun _ _ => (4:ℝ)).mulVec x) = x := by
  refine claim_C1_cholesky_correct 1 (Matrix.of fun _ _ => (4:ℝ))
    (fun i j => rfl) ?_
  intro x hx
  have h0 : x 0 ≠ 0 := by
    intro h0
    apply hx
    funext i
    rw [Fin.eq_zero i]
    exact h0
  have hdot : Matrix.dotProduct x ((Matrix.of fun _ _ => (4:ℝ)).mulVec x)
      = x 0 * (4 * x 0) := by
    simp [Matrix.dotProduct, Matrix.mulVec, Fin.sum_univ_one]
  rw [hdot]
  have := mul_self_pos.mpr h0
  nlinarith

/-- Claim C4: a symmetric matrix that is not positive definite (equivalently,
one on which elimination meets a non-positive pivot) is rejected: the
factorization and the constructor fail with `notDefPos`, and no factor
object is produced. -/
theorem claim_C4_not_posdef_rejected (n : ℕ) (A : Matrix (Fin n) (Fin n) ℝ)
    (hs : matSymm A) (hnpd : ¬ matPosDef A) :
    cs_chol n A = .error CholeskyError.notDefPos
    ∧ CholeskyDecomp.construct A = .error CholeskyError.notDefPos := by
  have herr : cs_chol n A = .error CholeskyError.notDefPos := by
    cases hch : cs_chol n A with
    | ok L => exact absurd (posDef_of_chol_ok n A L hs hch) hnpd
    | error e => cases e; rfl
  refine ⟨herr, ?_⟩
  unfold CholeskyDecomp.construct
  rw [permApplied_refl, herr]

/-- Concrete instance of claim C4 at the 1×1 all-zero matrix. -/
theorem claim_C4_not_posdef_rejected_witness :
    cs_chol 1 (0 : Matrix (Fin 1) (Fin 1) ℝ) = .error CholeskyError.notDefPos
    ∧ CholeskyDecomp.construct (0 : Matrix (Fin 1) (Fin 1) ℝ)
        = .error CholeskyError.notDefPos := by
  refine claim_C4_not_posdef_rejected 1 0 (fun i j => rfl) ?_
  intro hpd
  have hne : (fun _ : Fin 1 => (1:ℝ)) ≠ 0 := by
    intro heq
    have := congrFun heq 0
    simp at this
  have h := hpd (fun _ => 1) hne
  have hdot : Matrix.dotProduct (fun _ : Fin 1 => (1:ℝ))
      ((0 : Matrix (Fin 1) (Fin 1) ℝ).mulVec fun _ => 1) = 0 := by
    simp [Matrix.dotProduct, Matrix.mulVec]
  rw [hdot] at h
  exact lt_irrefl 0 h

/-- Claim C5: a factor object keeps only its own state (permutation, factor,
fingerprint); the results of `get_L` and `backsub` observed after any
sequence of mutations of the source matrix equal the results observed
before. -/
theorem claim_C5_factor_ignores_source_mutation (n : ℕ) (F : CholeskyDecomp n)
    (S : Matrix (Fin n) (Fin n) ℝ)
    (muts : List (Matrix (Fin n) (Fin n) ℝ → Matrix (Fin n) (Fin n) ℝ))
    (b : Fin n → ℝ) :
    F.get_L_observed (muts.foldl (fun s f => f s) S) = F.get_L_observed S
    ∧ F.backsub_observed (muts.foldl (fun s f => f s) S) b
        = F.backsub_observed S b :=
  ⟨rfl, rfl⟩

/-- Claim C6: after a successful factorization of `A`, `update` with an
identical copy of `A` re-runs only the numeric phase against the stored
symbolic analysis and returns a factor whose `L` (and permutation) are
identical to the original's. -/
theorem claim_C6_update_consistency (n : ℕ) (A : Matrix (Fin n) (Fin n) ℝ)
    (L : Matrix (Fin n) (Fin n) ℝ)
    (h : cs_chol n (permApplied (cs_schol n A) A) = .ok L) :
    ∃ F F' : CholeskyDecomp n,
      CholeskyDecomp.construct A = .ok F
      ∧ F.update A = .ok F'
      ∧ F'.L = F.L
      ∧ F'.perm = F.perm
      ∧ F'.get_L = F.get_L := by
  refine ⟨⟨cs_schol n A, L, {q | A q.1 q.2 ≠ 0}⟩,
    ⟨cs_schol n A, L, {q | A q.1 q.2 ≠ 0}⟩, ?_, ?_, rfl, rfl, rfl⟩
  · unfold CholeskyDecomp.construct
    rw [h]
  · unfold CholeskyDecomp.update
    show (match cs_chol n (permApplied (cs_schol n A) A) with
      | .error e => Except.error e
      | .ok L' => Except.ok (⟨cs_schol n A, L', {q | A q.1 q.2 ≠ 0}⟩
          : CholeskyDecomp n)) = _
    rw [h]

/-- Concrete instance of claim C6 at the 1×1 matrix holding 1. -/
theorem claim_C6_update_consistency_witness :
    ∃ F F' : CholeskyDecomp 1,
      CholeskyDecomp.construct (Matrix.of fun _ _ => (1:ℝ)) = .ok F
      ∧ F.update (Matrix.of fun _ _ => (1:ℝ)) = .ok F'
      ∧ F'.L = F.L
      ∧ F'.perm = F.perm
      ∧ F'.get_L = F.get_L := by
  refine claim_C6_update_consistency 1 (Matrix.of fun _ _ => (1:ℝ))
    (cholAssemble (permApplied (cs_schol 1 (Matrix.of fun _ _ => (1:ℝ)))
      (Matrix.of fun _ _ => (1:ℝ))) 0) ?_
  rw [cs_chol_succ_pos (by norm_num [permApplied, cs_schol])]
  rw [show cs_chol 0 (schurStep (permApplied (cs_schol 1 (Matrix.of fun _ _ => (1:ℝ)))
    (Matrix.of fun _ _ => (1:ℝ)))) = .ok 0 from cs_chol_zero _]

end MrptSparse
